import Mathlib

/-
  Verification of the fixed-capacity vector `ArrayVec<T, N>` from
  `src/src/lib.rs` (with the `set_len` variants of `src/src/arrayv.rs`
  and `src/src/arrayvec.rs` also modelled).

  Embedding conventions:
  * The backing `[MaybeUninit<T>; N]` array is a `List (Option T)` of
    length `N`; `none` stands for an uninitialized slot, `some x` for a
    slot holding the live value `x`.  `ptr::write` is `List.set`,
    `ptr::read` reads the slot without changing it.
  * `&mut self` methods take the state and return the new state; a Rust
    `Result<A, E>` is `Except E A`; a method that can `panic!` returns
    `Option` with `none` for the panic.
  * `truncate` additionally returns the list of slots it drops, so that
    drop accounting can be stated.
-/

namespace GenericArrayVec

/-- CapacityError from `src/src/error.rs`: a newtype carrying the rejected
item (which is `()` when nothing is carried, as in `try_extend_from_slice`). -/
structure CapacityError (T : Type) where
  item : T
deriving DecidableEq, Repr

/-- ArrayVec from `src/src/lib.rs`: a fixed array of `N` possibly
uninitialized slots plus a length. -/
structure ArrayVec (T : Type) (N : Nat) where
  array : List (Option T)
  len : Nat
deriving DecidableEq, Repr

namespace ArrayVec

variable {T : Type} {N : Nat}

/-- Default impl: a fully uninitialized array and `len = 0`. -/
def empty (T : Type) (N : Nat) : ArrayVec T N :=
  { array := List.replicate N none, len := 0 }

/-- capacity() returns the const generic `N`. -/
def capacity (_ : ArrayVec T N) : Nat := N

/-- is_empty(): `len() == 0`. -/
def is_empty (v : ArrayVec T N) : Bool := v.len == 0

/-- is_full(): `len() == capacity()`. -/
def is_full (v : ArrayVec T N) : Bool := v.len == v.capacity

/-- remaining_capacity(): `capacity() - len()`. -/
def remaining_capacity (v : ArrayVec T N) : Nat := v.capacity - v.len

/-- set_len(length): overwrite the stored length, touching no slot. -/
def set_len (v : ArrayVec T N) (length : Nat) : ArrayVec T N :=
  { v with len := length }

/-- take(index): `ptr::read` of slot `index`; the slot itself is not
changed.  The model yields the slot's content as an `Option`. -/
def take (v : ArrayVec T N) (index : Nat) : Option T :=
  v.array.getD index none

/-- push_unchecked(item): write `item` into slot `len`, then
`set_len(len + 1)`. -/
def push_unchecked (v : ArrayVec T N) (item : T) : ArrayVec T N :=
  { array := v.array.set v.len (some item), len := v.len + 1 }

/-- try_push(item): append if `len() < capacity()`, otherwise return a
`CapacityError` carrying `item` and leave the state untouched. -/
def try_push (v : ArrayVec T N) (item : T) :
    ArrayVec T N × Except (CapacityError T) Unit :=
  if v.len < v.capacity then (v.push_unchecked item, Except.ok ())
  else (v, Except.error ⟨item⟩)

/-- push(item): `try_push(item).unwrap()`; `none` models the panic. -/
def push (v : ArrayVec T N) (item : T) : Option (ArrayVec T N) :=
  match v.try_push item with
  | (v', Except.ok _) => some v'
  | (_, Except.error _) => none

/-- The overlapping `ptr::copy(place, place.offset(1), len - index)` of
`try_insert`: slots `index .. len-1` are moved one slot to the right,
slot `index` and slots past `len` keep their old content (slot `index`
is overwritten by the subsequent write). -/
def copy_shift (arr : List (Option T)) (index len : Nat) : List (Option T) :=
  arr.take (index + 1) ++ (arr.drop index).take (len - index) ++ arr.drop (len + 1)

/-- try_insert(index, item): panics (`none`) when `index > len()`;
otherwise returns a `CapacityError` carrying `item` when full, else
shifts `[index, len)` right, writes `item` at `index` and bumps the
length. -/
def try_insert (v : ArrayVec T N) (index : Nat) (item : T) :
    Option (ArrayVec T N × Except (CapacityError T) Unit) :=
  if index > v.len then
    none
  else if v.is_full then
    some (v, Except.error ⟨item⟩)
  else
    some ({ array := (copy_shift v.array index v.len).set index (some item),
            len := v.len + 1 }, Except.ok ())

/-- insert(index, item): `try_insert(index, item).unwrap()`; `none`
models both the index panic and the unwrap of a capacity error. -/
def insert (v : ArrayVec T N) (index : Nat) (item : T) :
    Option (ArrayVec T N) :=
  match v.try_insert index item with
  | some (v', Except.ok _) => some v'
  | _ => none

/-- pop(): `none` when empty; otherwise read slot `len - 1` and then
`set_len(len - 1)` (in `lib.rs` the read comes first, see `pop_trace`). -/
def pop (v : ArrayVec T N) : ArrayVec T N × Option T :=
  if v.is_empty then (v, none)
  else
    let new_len := v.len - 1
    let popped := v.take new_len
    (v.set_len new_len, popped)

/-- truncate(new_len): no-op unless `new_len < len()`; otherwise set the
length to `new_len` and drop the slots of the excised range
`[new_len, old_len)`, here returned as the second component. -/
def truncate (v : ArrayVec T N) (new_len : Nat) :
    ArrayVec T N × List (Option T) :=
  if new_len < v.len then
    (v.set_len new_len, (v.array.take v.len).drop new_len)
  else (v, [])

/-- clear(): `truncate(0)`. -/
def clear (v : ArrayVec T N) : ArrayVec T N × List (Option T) :=
  v.truncate 0

/-- try_extend_from_slice(slice): reject with a `CapacityError` carrying
`()` when the slice does not fit; otherwise bulk-copy it after the live
elements. -/
def try_extend_from_slice (v : ArrayVec T N) (slice : List T) :
    ArrayVec T N × Except (CapacityError Unit) Unit :=
  if v.remaining_capacity < slice.length then
    (v, Except.error ⟨()⟩)
  else
    ({ array := v.array.take v.len ++ slice.map some ++
                v.array.drop (v.len + slice.length),
       len := v.len + slice.length }, Except.ok ())

/-- into_inner(): the raw array (all `N` slots) when full, otherwise the
untouched vector as the error. -/
def into_inner (v : ArrayVec T N) : Except (ArrayVec T N) (List (Option T)) :=
  if v.is_full then Except.ok v.array else Except.error v

/-- Deref to `&[T]`: the live slots `[0, len)`. -/
def deref (v : ArrayVec T N) : List (Option T) :=
  v.array.take v.len

/-- Loop body of `Extend::extend`: one slot of
`array[len .. len + remaining_capacity]` is filled per source item until
either the slots or the source run out.  Returns the final array, the
final length and the unconsumed rest of the source. -/
def extend_loop (arr : List (Option T)) (len slots : Nat) (xs : List T) :
    List (Option T) × Nat × List T :=
  match slots, xs with
  | 0, xs => (arr, len, xs)
  | _ + 1, [] => (arr, len, [])
  | s + 1, x :: rest => extend_loop (arr.set len (some x)) (len + 1) s rest

/-- Extend::extend with the source sequence given as a list. -/
def extend (v : ArrayVec T N) (xs : List T) : ArrayVec T N :=
  let r := extend_loop v.array v.len v.remaining_capacity xs
  { array := r.1, len := r.2.1 }

/-- The part of the source that `extend` leaves unconsumed. -/
def extend_rest (v : ArrayVec T N) (xs : List T) : List T :=
  (extend_loop v.array v.len v.remaining_capacity xs).2.2

/-- FromIterator::from_iter: default-construct, then extend. -/
def from_iter (xs : List T) : ArrayVec T N :=
  (empty T N).extend xs

/-- Well-formedness invariant of a reachable ArrayVec: the backing array
has physical length `N`, the length is within capacity, and every live
slot is initialized. -/
def WF (v : ArrayVec T N) : Prop :=
  v.array.length = N ∧ v.len ≤ N ∧ ∀ i, i < v.len → (v.array.getD i none).isSome

instance (v : ArrayVec T N) : Decidable v.WF := by
  unfold WF; infer_instance

end ArrayVec

/-- IntoIter from `src/src/lib.rs`: the moved-in vector plus the front
index. -/
structure IntoIter (T : Type) (N : Nat) where
  array : ArrayVec T N
  index : Nat
deriving DecidableEq, Repr

/-- IntoIterator for ArrayVec: wrap the vector with front index 0. -/
def ArrayVec.into_iter {T : Type} {N : Nat} (v : ArrayVec T N) : IntoIter T N :=
  { array := v, index := 0 }

namespace IntoIter

variable {T : Type} {N : Nat}

/-- Iterator::next: `none` once `index == len`; otherwise take slot
`index` and advance the front index. -/
def next (it : IntoIter T N) : IntoIter T N × Option T :=
  if it.index == it.array.len then (it, none)
  else
    let elem := it.array.take it.index
    ({ it with index := it.index + 1 }, elem)

/-- DoubleEndedIterator::next_back: `none` once `index == len`;
otherwise take slot `len - 1` and shrink the effective length. -/
def next_back (it : IntoIter T N) : IntoIter T N × Option T :=
  if it.index == it.array.len then (it, none)
  else
    let new_len := it.array.len - 1
    let elem := it.array.take new_len
    ({ it with array := it.array.set_len new_len }, elem)

end IntoIter

/-- One operation of a push/pop sequence. -/
inductive Op (T : Type) where
  | push (x : T)
  | pop
deriving DecidableEq, Repr

/-- Number of pushes in a sequence. -/
def countPushes {T : Type} : List (Op T) → Nat
  | [] => 0
  | Op.push _ :: rest => countPushes rest + 1
  | Op.pop :: rest => countPushes rest

/-- Number of pops in a sequence. -/
def countPops {T : Type} : List (Op T) → Nat
  | [] => 0
  | Op.push _ :: rest => countPops rest
  | Op.pop :: rest => countPops rest + 1

/-- Run a sequence of operations on an ArrayVec, collecting each pop's
return value.  `push` is the panicking wrapper, so the whole run is
`none` if any push hits a full vector. -/
def runVec {T : Type} {N : Nat} :
    List (Op T) → ArrayVec T N → Option (ArrayVec T N × List (Option T))
  | [], v => some (v, [])
  | Op.push x :: rest, v =>
    match v.try_push x with
    | (v', Except.ok _) => runVec rest v'
    | (_, Except.error _) => none
  | Op.pop :: rest, v =>
    let r := v.pop
    (runVec rest r.1).map (fun s => (s.1, r.2 :: s.2))

/-- The abstract stack: a list with the newest element at the end.  A
push appends, a pop removes and returns the last element (returning
nothing on an empty stack).  The second component collects the pop
results. -/
def runModel {T : Type} : List (Op T) → List T → List T × List (Option T)
  | [], s => (s, [])
  | Op.push x :: rest, s => runModel rest (s ++ [x])
  | Op.pop :: rest, s =>
    let r := runModel rest s.dropLast
    (r.1, s.getLast? :: r.2)

/-- A sequence never exceeds capacity `N`: every push happens while the
abstract stack holds fewer than `N` elements. -/
def admissible {T : Type} (N : Nat) : List (Op T) → List T → Bool
  | [], _ => true
  | Op.push x :: rest, s => decide (s.length < N) && admissible N rest (s ++ [x])
  | Op.pop :: rest, s => admissible N rest s.dropLast

/-- No pop of the sequence happens on an empty stack. -/
def noUnderflow {T : Type} : List (Op T) → List T → Bool
  | [], _ => true
  | Op.push x :: rest, s => noUnderflow rest (s ++ [x])
  | Op.pop :: rest, s => !s.isEmpty && noUnderflow rest s.dropLast

/-- Micro-events of a removal path, in source order: a `set_len` call, a
`ptr::read` of a slot, a `drop_in_place` of a slot, and the return of
the removed value to the caller. -/
inductive Ev where
  | len_write (n : Nat)
  | slot_read (i : Nat)
  | slot_drop (i : Nat)
  | value_out
deriving DecidableEq, Repr

/-- Event trace of `pop()` in `src/src/lib.rs`, in statement order: the
`take` (a `ptr::read` of slot `len - 1`) comes first, then
`set_len(len - 1)`, then the value is returned. -/
def pop_trace {T : Type} {N : Nat} (v : ArrayVec T N) : List Ev :=
  if v.is_empty then []
  else [Ev.slot_read (v.len - 1), Ev.len_write (v.len - 1), Ev.value_out]

/-- Event trace of `truncate(new_len)` in `src/src/lib.rs`:
`set_len(new_len)` first, then `ptr::drop_in_place` of the excised range
`[new_len, old_len)`, dropping slots in index order. -/
def truncate_trace {T : Type} {N : Nat} (v : ArrayVec T N) (new_len : Nat) :
    List Ev :=
  if new_len < v.len then
    Ev.len_write new_len ::
      (List.range (v.len - new_len)).map (fun k => Ev.slot_drop (new_len + k))
  else []

/-- The length bookkeeping is written to its final value `final` before
any event that runs a destructor or releases a value to the caller. -/
def len_write_before_harm (final : Nat) : List Ev → Bool
  | [] => true
  | Ev.len_write n :: rest => n == final || len_write_before_harm final rest
  | Ev.slot_read _ :: rest => len_write_before_harm final rest
  | Ev.slot_drop _ :: _ => false
  | Ev.value_out :: _ => false

/-- The length bookkeeping is written to its final value `final` before
any slot is read (the literal "decrements length first, then removes"
ordering). -/
def len_write_before_read (final : Nat) : List Ev → Bool
  | [] => true
  | Ev.len_write n :: rest => n == final || len_write_before_read final rest
  | Ev.slot_read _ :: _ => false
  | Ev.slot_drop _ :: rest => len_write_before_read final rest
  | Ev.value_out :: rest => len_write_before_read final rest

/-- Pass condition of the `debug_assert!` in `set_len` of
`src/src/lib.rs` (line 95): `length <= self.capacity()`. -/
def set_len_assert_lib (N length : Nat) : Bool := length ≤ N

/-- Pass condition of the `debug_assert!` in `set_len` of
`src/src/arrayv.rs` (line 61): `length < self.capacity()`. -/
def set_len_assert_arrayv (N length : Nat) : Bool := length < N

/-- Pass condition of `set_len` of `src/src/arrayvec.rs` (lines 30-32):
the body is a bare assignment, there is no assertion at all. -/
def set_len_assert_arrayvec (_N _length : Nat) : Bool := true

/-- Refinement relation between an ArrayVec and the abstract stack it
represents (newest element at the end of the list). -/
def Rel {T : Type} {N : Nat} (v : ArrayVec T N) (s : List T) : Prop :=
  v.array.length = N ∧ v.len = s.length ∧ s.length ≤ N ∧
    v.array.take v.len = s.map some

end GenericArrayVec

deriving instance DecidableEq for Except

namespace GenericArrayVec

variable {T : Type} {N : Nat}

/- List helper lemmas used throughout. -/

/-- Writing slot `n` and then viewing the first `n + 1` slots appends the
written value to the first `n` old slots. -/
theorem take_succ_set {α : Type} (l : List α) (n : Nat) (a : α)
    (h : n < l.length) : (l.set n a).take (n + 1) = l.take n ++ [a] := by
  rw [List.set_eq_take_append_cons_drop, if_pos h]
  have hlen : (l.take n).length = n := by
    simp [List.length_take, Nat.min_eq_left (Nat.le_of_lt h)]
  calc (l.take n ++ a :: l.drop (n + 1)).take (n + 1)
      = (l.take n ++ a :: l.drop (n + 1)).take ((l.take n).length + 1) := by
        rw [hlen]
    _ = l.take n ++ (a :: l.drop (n + 1)).take 1 := List.take_append 1
    _ = l.take n ++ [a] := by simp

/-- A slot below the viewed length reads the same through the view. -/
theorem getD_take {α : Type} (l : List α) (n i : Nat) (d : α) (h : i < n) :
    (l.take n).getD i d = l.getD i d := by
  rw [List.getD_eq_getElem?_getD, List.getD_eq_getElem?_getD,
    List.getElem?_take, if_pos h]

/-- Every slot covered by a view whose entries are all `isSome` is
itself `isSome`. -/
theorem getD_isSome_of_take {α : Type} {l : List (Option α)} {n : Nat}
    {s : List (Option α)} (hTake : l.take n = s)
    (hAll : ∀ o ∈ s, o.isSome) (hn : n ≤ l.length) :
    ∀ i, i < n → (l.getD i none).isSome := by
  intro i hi
  have hlt : i < l.length := Nat.lt_of_lt_of_le hi hn
  have h1 : (l.take n)[i]? = l[i]? := by rw [List.getElem?_take, if_pos hi]
  have h2 : l[i]? = some l[i] := List.getElem?_eq_getElem hlt
  have h3 : l[i] ∈ s := by
    have : (List.take n l)[i]? = some l[i] := by rw [h1, h2]
    exact hTake ▸ List.getElem?_mem this
  rw [List.getD_eq_getElem?_getD, h2]
  exact hAll _ h3

/-- The overlapping shift degenerates to the identity when inserting at
the very end. -/
theorem copy_shift_at_len {α : Type} (arr : List (Option α)) (len : Nat) :
    ArrayVec.copy_shift arr len len = arr := by
  unfold ArrayVec.copy_shift
  rw [Nat.sub_self, List.take_zero, List.append_nil]
  exact List.take_append_drop (len + 1) arr

/-- C4: `truncate(k)` leaves `len()` at `min k L`, keeps the backing
array intact, keeps exactly the first `min k L` live elements observable
through the slice view (the view becomes the old view truncated to `k`,
so nothing at index `k` or later is observable), and drops exactly the
excised live slots `[k, L)`, in order, each once. -/
theorem truncate_spec (v : ArrayVec T N) (k : Nat) :
    (v.truncate k).1.len = min k v.len
    ∧ (v.truncate k).1.array = v.array
    ∧ (v.truncate k).1.deref = v.deref.take k
    ∧ (v.truncate k).2 = v.deref.drop k := by
  unfold ArrayVec.truncate
  by_cases h : k < v.len
  · rw [if_pos h]
    refine ⟨?_, rfl, ?_, rfl⟩
    · simpa [ArrayVec.set_len] using (Nat.min_eq_left (Nat.le_of_lt h)).symm
    · show v.array.take k = (v.array.take v.len).take k
      rw [List.take_take, Nat.min_eq_left (Nat.le_of_lt h)]
  · rw [if_neg h]
    have hle : v.len ≤ k := Nat.le_of_not_lt h
    refine ⟨?_, rfl, ?_, ?_⟩
    · exact (Nat.min_eq_right hle).symm
    · show v.array.take v.len = (v.array.take v.len).take k
      rw [List.take_take, Nat.min_eq_right hle]
    · have : v.deref.length ≤ k := by
        unfold ArrayVec.deref
        calc (v.array.take v.len).length ≤ v.len := by
              simp [List.length_take]
          _ ≤ k := hle
      exact (List.drop_eq_nil_of_le this).symm

/-- Witness for the truncate theorem on a concrete vector. -/
theorem truncate_spec_witness :
    ((⟨[some 1, some 2, some 3], 3⟩ : ArrayVec Nat 3).truncate 1).1.len
        = min 1 3
    ∧ ((⟨[some 1, some 2, some 3], 3⟩ : ArrayVec Nat 3).truncate 1).1.array
        = [some 1, some 2, some 3]
    ∧ ((⟨[some 1, some 2, some 3], 3⟩ : ArrayVec Nat 3).truncate 1).1.deref
        = (⟨[some 1, some 2, some 3], 3⟩ : ArrayVec Nat 3).deref.take 1
    ∧ ((⟨[some 1, some 2, some 3], 3⟩ : ArrayVec Nat 3).truncate 1).2
        = (⟨[some 1, some 2, some 3], 3⟩ : ArrayVec Nat 3).deref.drop 1 :=
  truncate_spec (⟨[some 1, some 2, some 3], 3⟩ : ArrayVec Nat 3) 1

/-- C5: `into_inner` succeeds exactly on a full vector, yielding the raw
array, which then coincides with the live slice (same `N` values, same
order, all initialized); on a non-full vector it fails and hands back
the original container itself. -/
theorem into_inner_spec (v : ArrayVec T N) (h : v.WF) :
    (v.len = N → v.into_inner = Except.ok v.array ∧ v.array = v.deref ∧
       v.array.length = N ∧ ∀ o ∈ v.array, o.isSome)
    ∧ (v.len ≠ N → v.into_inner = Except.error v) := by
  obtain ⟨hlen, hle, hinit⟩ := h
  constructor
  · intro hfull
    have hfb : v.is_full = true := by
      simp [ArrayVec.is_full, ArrayVec.capacity, hfull]
    refine ⟨by simp [ArrayVec.into_inner, hfb], ?_, hlen, ?_⟩
    · unfold ArrayVec.deref
      have hl : v.len = v.array.length := by rw [hfull, hlen]
      rw [hl, List.take_length]
    · intro o ho
      rw [List.mem_iff_getElem?] at ho
      obtain ⟨i, hi⟩ := ho
      have hilt : i < v.array.length := by
        by_contra hni
        rw [List.getElem?_eq_none (Nat.le_of_not_lt hni)] at hi
        exact Option.noConfusion hi
      have := hinit i (by omega)
      rw [List.getD_eq_getElem?_getD, hi] at this
      simpa using this
  · intro hnot
    have hfb : v.is_full = false := by
      simp [ArrayVec.is_full, ArrayVec.capacity]
      exact hnot
    simp [ArrayVec.into_inner, hfb]

/-- Witness: a full capacity-2 vector round-trips through `into_inner`. -/
theorem into_inner_spec_witness :
    (⟨[some 4, some 5], 2⟩ : ArrayVec Nat 2).into_inner
      = Except.ok [some 4, some 5] :=
  (((into_inner_spec (⟨[some 4, some 5], 2⟩ : ArrayVec Nat 2)
    (by decide)).1) rfl).1

/-- On a full vector with an in-bounds index, `try_insert` returns the
capacity error carrying the item and the vector untouched. -/
theorem try_insert_full_err (v : ArrayVec T N) (idx : Nat) (item : T)
    (hN : v.len = N) (hle : idx ≤ v.len) :
    v.try_insert idx item = some (v, Except.error ⟨item⟩) := by
  have hngt : ¬ idx > v.len := Nat.not_lt.mpr hle
  have hfb : v.is_full = true := by
    simp [ArrayVec.is_full, ArrayVec.capacity, hN]
  unfold ArrayVec.try_insert
  rw [if_neg hngt]
  simp [hfb]

/-- C10: in `try_insert` the index check comes first: the call panics
(`none`) exactly when `index > len()`, and when the vector is full and
the index is in bounds it returns the capacity error carrying the item
with the vector untouched. -/
theorem try_insert_index_check_first (v : ArrayVec T N) (idx : Nat) (item : T) :
    (v.try_insert idx item = none ↔ v.len < idx)
    ∧ (v.len = N → idx ≤ v.len →
        v.try_insert idx item = some (v, Except.error ⟨item⟩)) := by
  constructor
  · unfold ArrayVec.try_insert
    by_cases h : idx > v.len
    · simp [h]
    · rw [if_neg h]
      by_cases hf : v.is_full
      · simp [hf]
        exact Nat.le_of_not_lt h
      · simp [hf]
        exact Nat.le_of_not_lt h
  · exact try_insert_full_err v idx item

/-- Witness: on a full one-slot vector, inserting at index 2 panics and
inserting at index 1 reports the capacity error. -/
theorem try_insert_index_check_first_witness :
    ((⟨[some 9], 1⟩ : ArrayVec Nat 1).try_insert 2 7 = none ↔ (1:Nat) < 2)
    ∧ ((1:Nat) = 1 → 1 ≤ 1 →
        (⟨[some 9], 1⟩ : ArrayVec Nat 1).try_insert 1 7
          = some (⟨[some 9], 1⟩, Except.error ⟨7⟩)) :=
  try_insert_index_check_first (⟨[some 9], 1⟩ : ArrayVec Nat 1) 2 7
    |>.imp id (fun h _ _ => by
      have := (try_insert_index_check_first
        (⟨[some 9], 1⟩ : ArrayVec Nat 1) 1 7).2 rfl (by decide)
      exact this)

/-- C9: assertion models of the three `set_len` variants.  The `lib.rs`
assertion passes exactly for `length <= N`; the `arrayv.rs` assertion
rejects `length = N` (so filling to capacity trips it); the
`arrayvec.rs` variant asserts nothing, accepting even `length > N`. -/
theorem set_len_assert_spec :
    (∀ M l, set_len_assert_lib M l = true ↔ l ≤ M)
    ∧ set_len_assert_lib 1 1 = true
    ∧ set_len_assert_arrayv 1 1 = false
    ∧ set_len_assert_arrayvec 1 2 = true := by
  refine ⟨fun M l => ?_, by decide, by decide, by decide⟩
  simp [set_len_assert_lib]

/-- C3 (amended): in the removal paths of `lib.rs` the stored length is
written to its final value before any destructor runs or the removed
value is released to the caller: the `truncate` trace starts with the
length write and only then drops the excised slots, and the `pop` trace
writes the length before yielding the value and contains no drop at all;
on a non-empty vector the `pop` trace is read-slot, write-length, yield,
in that order. -/
theorem removal_len_write_first (v : ArrayVec T N) (k : Nat) :
    len_write_before_harm k (truncate_trace v k) = true
    ∧ len_write_before_harm (v.len - 1) (pop_trace v) = true
    ∧ (∀ i, Ev.slot_drop i ∉ pop_trace v)
    ∧ (v.is_empty = false →
        pop_trace v = [Ev.slot_read (v.len - 1), Ev.len_write (v.len - 1),
          Ev.value_out]) := by
  refine ⟨?_, ?_, ?_, ?_⟩
  · unfold truncate_trace
    by_cases h : k < v.len
    · simp [h, len_write_before_harm]
    · simp [h, len_write_before_harm]
  · unfold pop_trace
    by_cases h : v.is_empty
    · simp [h, len_write_before_harm]
    · simp [h, len_write_before_harm]
  · intro i
    unfold pop_trace
    by_cases h : v.is_empty <;> simp [h]
  · intro h
    simp [pop_trace, h]

/-- Witness: the ordering theorem applied to a concrete one-element
vector, truncated to length 0. -/
theorem removal_len_write_first_witness :
    len_write_before_harm 0
        (truncate_trace (⟨[some 3], 1⟩ : ArrayVec Nat 1) 0) = true
    ∧ len_write_before_harm 0 (pop_trace (⟨[some 3], 1⟩ : ArrayVec Nat 1))
        = true :=
  ⟨(removal_len_write_first (⟨[some 3], 1⟩ : ArrayVec Nat 1) 0).1,
   (removal_len_write_first (⟨[some 3], 1⟩ : ArrayVec Nat 1) 0).2.1⟩

/-- C3 counterexample: in `lib.rs`, `pop` on a non-empty vector reads
the slot before the length write, so the literal "decrements the stored
length first and only then removes the value" ordering fails. -/
theorem pop_reads_before_len_write :
    len_write_before_read 0 (pop_trace (⟨[some 0], 1⟩ : ArrayVec Nat 1))
        = false
    ∧ (⟨[some 0], 1⟩ : ArrayVec Nat 1).is_empty = false := by
  decide

/-- C2 (amended): a failed `try_push` or `try_insert` returns a capacity
error carrying the rejected item and leaves the vector untouched; a
failed `try_extend_from_slice` leaves the vector untouched but its
capacity error carries `()` rather than the rejected values. -/
theorem capacity_error_spec (v : ArrayVec T N) (item : T) (idx : Nat)
    (s : List T) :
    (N ≤ v.len → v.try_push item = (v, Except.error ⟨item⟩))
    ∧ (v.len = N → idx ≤ v.len →
        v.try_insert idx item = some (v, Except.error ⟨item⟩))
    ∧ (v.capacity - v.len < s.length →
        v.try_extend_from_slice s = (v, Except.error ⟨()⟩)) := by
  refine ⟨?_, ?_, ?_⟩
  · intro h
    unfold ArrayVec.try_push
    rw [if_neg (by simp [ArrayVec.capacity]; omega)]
  · exact try_insert_full_err v idx item
  · intro h
    unfold ArrayVec.try_extend_from_slice
    rw [if_pos (by simpa [ArrayVec.remaining_capacity] using h)]

/-- Witness: pushing 7 onto a full one-slot vector hands 7 back. -/
theorem capacity_error_spec_witness :
    (⟨[some 9], 1⟩ : ArrayVec Nat 1).try_push 7
      = (⟨[some 9], 1⟩, Except.error ⟨7⟩) :=
  (capacity_error_spec (⟨[some 9], 1⟩ : ArrayVec Nat 1) 7 0 []).1
    (by decide)

/-- C2 counterexample: the capacity error of `try_extend_from_slice`
carries `()` only — two failing calls rejecting different slices return
identical errors, so no function can recover the rejected values from
the error. -/
theorem extend_error_carries_no_values :
    ((⟨[some 0], 1⟩ : ArrayVec Nat 1).try_extend_from_slice [5, 6]).2
      = ((⟨[some 0], 1⟩ : ArrayVec Nat 1).try_extend_from_slice [7, 8]).2
    ∧ ([5, 6] : List Nat) ≠ [7, 8]
    ∧ ¬ ∃ recover : CapacityError Unit → List Nat,
        ∀ (v : ArrayVec Nat 1) (s : List Nat) (e : CapacityError Unit),
          (v.try_extend_from_slice s).2 = Except.error e → recover e = s := by
  refine ⟨rfl, by decide, ?_⟩
  rintro ⟨f, hf⟩
  have h1 := hf ⟨[some 0], 1⟩ [5, 6] ⟨()⟩ rfl
  have h2 := hf ⟨[some 0], 1⟩ [7, 8] ⟨()⟩ rfl
  have : ([5, 6] : List Nat) = [7, 8] := h1.symm.trans h2
  simp at this

/-- C8: on any vector with `len() <= N`, `try_insert(len(), item)` is
exactly `try_push(item)` (same new state, same result), the panicking
wrappers agree likewise, and any index beyond `len()` makes both insert
forms panic unconditionally, never returning a capacity error. -/
theorem insert_at_len_is_push (v : ArrayVec T N) (item : T) (idx : Nat)
    (h : v.len ≤ N) :
    v.try_insert v.len item = some (v.try_push item)
    ∧ v.insert v.len item = v.push item
    ∧ (v.len < idx → v.try_insert idx item = none ∧ v.insert idx item = none) := by
  have hmain : v.try_insert v.len item = some (v.try_push item) := by
    unfold ArrayVec.try_insert ArrayVec.try_push
    rw [if_neg (Nat.lt_irrefl v.len)]
    rcases Nat.lt_or_ge v.len N with hlt | hge
    · have hfb : v.is_full = false := by
        simp [ArrayVec.is_full, ArrayVec.capacity]
        omega
      rw [if_neg (by simp [hfb]), if_pos (by simpa [ArrayVec.capacity] using hlt)]
      rw [copy_shift_at_len]
      rfl
    · have hN : v.len = N := Nat.le_antisymm h hge
      have hfb : v.is_full = true := by
        simp [ArrayVec.is_full, ArrayVec.capacity, hN]
      rw [if_pos (by simp [hfb]), if_neg (by simp [ArrayVec.capacity]; omega)]
  refine ⟨hmain, ?_, ?_⟩
  · unfold ArrayVec.insert ArrayVec.push
    rw [hmain]
    rcases hres : v.try_push item with ⟨v', r⟩
    cases r <;> rfl
  · intro hgt
    have hnone : v.try_insert idx item = none := by
      unfold ArrayVec.try_insert
      rw [if_pos hgt]
    exact ⟨hnone, by unfold ArrayVec.insert; rw [hnone]⟩

/-- Witness: on a one-element capacity-2 vector, inserting 7 at index 1
equals pushing 7, and inserting at index 2 panics. -/
theorem insert_at_len_is_push_witness :
    (⟨[some 4, none], 1⟩ : ArrayVec Nat 2).try_insert 1 7
      = some ((⟨[some 4, none], 1⟩ : ArrayVec Nat 2).try_push 7)
    ∧ (⟨[some 4, none], 1⟩ : ArrayVec Nat 2).insert 1 7
      = (⟨[some 4, none], 1⟩ : ArrayVec Nat 2).push 7
    ∧ ((1:Nat) < 2 → (⟨[some 4, none], 1⟩ : ArrayVec Nat 2).try_insert 2 7 = none
        ∧ (⟨[some 4, none], 1⟩ : ArrayVec Nat 2).insert 2 7 = none) :=
  insert_at_len_is_push (⟨[some 4, none], 1⟩ : ArrayVec Nat 2) 7 2 (by decide)

/-- Every element of the live slice of a well-formed vector is an
initialized slot. -/
theorem deref_all_isSome (v : ArrayVec T N) (h : v.WF) :
    ∀ o ∈ v.deref, o.isSome := by
  obtain ⟨hlen, hle, hinit⟩ := h
  intro o ho
  unfold ArrayVec.deref at ho
  rw [List.mem_iff_getElem?] at ho
  obtain ⟨i, hi⟩ := ho
  rw [List.getElem?_take] at hi
  by_cases hilt : i < v.len
  · rw [if_pos hilt] at hi
    have := hinit i hilt
    rw [List.getD_eq_getElem?_getD, hi] at this
    simpa using this
  · rw [if_neg hilt] at hi
    exact Option.noConfusion hi

/-- C6: for the consuming iterator over a well-formed vector, a front
retrieval yields the slot at the front index and advances the front
index, a back retrieval yields the current highest live slot and
shrinks the effective length, both yielded values exist, and either end
yields nothing exactly when the front index has met the effective
length.  Concretely, on `[0, 1, 2]`, front, back, back, front yield
`0, 2, 1`, then nothing from either end. -/
theorem into_iter_spec (it : IntoIter T N) (h : it.array.WF)
    (hle : it.index ≤ it.array.len) :
    ((it.next).2 = none ↔ it.index = it.array.len)
    ∧ ((it.next_back).2 = none ↔ it.index = it.array.len)
    ∧ (it.index < it.array.len →
        (it.next).1 = { it with index := it.index + 1 }
        ∧ (it.next).2 = it.array.array.getD it.index none
        ∧ ((it.next).2).isSome
        ∧ (it.next_back).1
            = { it with array := it.array.set_len (it.array.len - 1) }
        ∧ (it.next_back).2 = it.array.array.getD (it.array.len - 1) none
        ∧ ((it.next_back).2).isSome)
    ∧ (let it0 := ArrayVec.into_iter
          (⟨[some 0, some 1, some 2], 3⟩ : ArrayVec Nat 3)
       (it0.next).2 = some 0
       ∧ ((it0.next).1.next_back).2 = some 2
       ∧ (((it0.next).1.next_back).1.next_back).2 = some 1
       ∧ ((((it0.next).1.next_back).1.next_back).1.next).2 = none
       ∧ ((((it0.next).1.next_back).1.next_back).1.next_back).2 = none) := by
  obtain ⟨hlen, hlenN, hinit⟩ := h
  by_cases hix : it.index = it.array.len
  · have hb : (it.index == it.array.len) = true := by simp [hix]
    refine ⟨?_, ?_, ?_, by decide⟩
    · unfold IntoIter.next
      simp [hb, hix]
    · unfold IntoIter.next_back
      simp [hb, hix]
    · intro hlt; omega
  · have hb : (it.index == it.array.len) = false := by simp [hix]
    have hlt : it.index < it.array.len := Nat.lt_of_le_of_ne hle hix
    have hsome_front : ((it.array.take it.index)).isSome := by
      unfold ArrayVec.take
      exact hinit it.index hlt
    have hsome_back : ((it.array.take (it.array.len - 1))).isSome := by
      unfold ArrayVec.take
      exact hinit (it.array.len - 1) (by omega)
    refine ⟨?_, ?_, ?_, by decide⟩
    · unfold IntoIter.next
      simp only [hb, Bool.false_eq_true, if_false]
      constructor
      · intro hc
        rw [hc] at hsome_front
        simp at hsome_front
      · intro hc; omega
    · unfold IntoIter.next_back
      simp only [hb, Bool.false_eq_true, if_false]
      constructor
      · intro hc
        rw [hc] at hsome_back
        simp at hsome_back
      · intro hc; omega
    · intro _
      refine ⟨?_, ?_, ?_, ?_, ?_, ?_⟩
      · unfold IntoIter.next
        simp [hb]
      · unfold IntoIter.next ArrayVec.take
        simp [hb]
      · show ((IntoIter.next it).2).isSome
        unfold IntoIter.next
        simp only [hb, Bool.false_eq_true, if_false]
        exact hsome_front
      · unfold IntoIter.next_back
        simp [hb]
      · unfold IntoIter.next_back ArrayVec.take
        simp [hb]
      · show ((IntoIter.next_back it).2).isSome
        unfold IntoIter.next_back
        simp only [hb, Bool.false_eq_true, if_false]
        exact hsome_back

/-- Witness: the iterator theorem applied to the iterator over the
concrete vector `[0, 1, 2]` at front index 0. -/
theorem into_iter_spec_witness :
    (((ArrayVec.into_iter (⟨[some 0, some 1, some 2], 3⟩ : ArrayVec Nat 3)).next).2
        = none
      ↔ (ArrayVec.into_iter (⟨[some 0, some 1, some 2], 3⟩ : ArrayVec Nat 3)).index
        = (ArrayVec.into_iter
            (⟨[some 0, some 1, some 2], 3⟩ : ArrayVec Nat 3)).array.len) :=
  (into_iter_spec
    (ArrayVec.into_iter (⟨[some 0, some 1, some 2], 3⟩ : ArrayVec Nat 3))
    (by decide) (by decide)).1

/-- Behaviour of the `extend` loop as a function of the available slots
and the source: the array keeps its physical length, the length grows by
`min slots |xs|`, the new view is the old view plus the copied prefix of
the source, and exactly the first `slots` source items are consumed. -/
theorem extend_loop_spec {α : Type} :
    ∀ (slots : Nat) (xs : List α) (arr : List (Option α)) (len : Nat),
      len + slots ≤ arr.length →
      (ArrayVec.extend_loop arr len slots xs).1.length = arr.length
      ∧ (ArrayVec.extend_loop arr len slots xs).2.1 = len + min slots xs.length
      ∧ (ArrayVec.extend_loop arr len slots xs).1.take (len + min slots xs.length)
          = arr.take len ++ (xs.take slots).map some
      ∧ (ArrayVec.extend_loop arr len slots xs).2.2 = xs.drop slots := by
  intro slots
  induction slots with
  | zero =>
    intro xs arr len h
    simp [ArrayVec.extend_loop]
  | succ s ih =>
    intro xs arr len h
    cases xs with
    | nil => simp [ArrayVec.extend_loop]
    | cons x rest =>
      have h' : (len + 1) + s ≤ (arr.set len (some x)).length := by
        rw [List.length_set]; omega
      obtain ⟨ihl, ihlen, ihtake, ihrest⟩ := ih rest (arr.set len (some x)) (len + 1) h'
      have hmin : min (s + 1) (x :: rest).length = min s rest.length + 1 := by
        simp [Nat.succ_min_succ]
      refine ⟨?_, ?_, ?_, ?_⟩
      · show (ArrayVec.extend_loop (arr.set len (some x)) (len + 1) s rest).1.length
            = arr.length
        rw [ihl, List.length_set]
      · show (ArrayVec.extend_loop (arr.set len (some x)) (len + 1) s rest).2.1
            = len + min (s + 1) (x :: rest).length
        rw [ihlen, hmin]; omega
      · show (ArrayVec.extend_loop (arr.set len (some x)) (len + 1) s rest).1.take
              (len + min (s + 1) (x :: rest).length)
            = arr.take len ++ ((x :: rest).take (s + 1)).map some
        have hidx : len + min (s + 1) (x :: rest).length
            = (len + 1) + min s rest.length := by rw [hmin]; omega
        rw [hidx, ihtake, take_succ_set arr len (some x) (by omega)]
        simp
      · show (ArrayVec.extend_loop (arr.set len (some x)) (len + 1) s rest).2.2
            = (x :: rest).drop (s + 1)
        simpa using ihrest

/-- The empty vector is well-formed. -/
theorem empty_WF : (ArrayVec.empty T N).WF := by
  refine ⟨by simp [ArrayVec.empty], by simp [ArrayVec.empty], ?_⟩
  intro i hi
  simp [ArrayVec.empty] at hi

/-- Specification of `extend` on a well-formed vector. -/
theorem extend_spec (v : ArrayVec T N) (xs : List T) (h : v.WF) :
    (v.extend xs).len = v.len + min (N - v.len) xs.length
    ∧ (v.extend xs).deref = v.deref ++ (xs.take (N - v.len)).map some
    ∧ v.extend_rest xs = xs.drop (N - v.len)
    ∧ (v.extend xs).WF := by
  obtain ⟨hlen, hle, hinit⟩ := h
  have hfit : v.len + (v.capacity - v.len) ≤ v.array.length := by
    simp [ArrayVec.capacity, hlen]; omega
  obtain ⟨ll, llen, ltake, lrest⟩ :=
    extend_loop_spec (v.capacity - v.len) xs v.array v.len hfit
  have hcap : v.capacity - v.len = N - v.len := by simp [ArrayVec.capacity]
  have hlenEq : (v.extend xs).len = v.len + min (N - v.len) xs.length := by
    show (ArrayVec.extend_loop v.array v.len (v.remaining_capacity) xs).2.1
        = v.len + min (N - v.len) xs.length
    unfold ArrayVec.remaining_capacity
    rw [llen, hcap]
  have hderef : (v.extend xs).deref
      = v.deref ++ (xs.take (N - v.len)).map some := by
    show (ArrayVec.extend_loop v.array v.len (v.remaining_capacity) xs).1.take
          (v.extend xs).len
        = v.array.take v.len ++ (xs.take (N - v.len)).map some
    rw [hlenEq]
    unfold ArrayVec.remaining_capacity
    rw [← hcap]
    exact ltake
  have hrest : v.extend_rest xs = xs.drop (N - v.len) := by
    show (ArrayVec.extend_loop v.array v.len (v.remaining_capacity) xs).2.2
        = xs.drop (N - v.len)
    unfold ArrayVec.remaining_capacity
    rw [lrest, hcap]
  have harrlen : (v.extend xs).array.length = N := by
    show (ArrayVec.extend_loop v.array v.len (v.remaining_capacity) xs).1.length = N
    unfold ArrayVec.remaining_capacity
    rw [ll, hlen]
  have hlen' : (v.extend xs).len ≤ N := by
    rw [hlenEq]
    have := Nat.min_le_left (N - v.len) xs.length
    omega
  refine ⟨hlenEq, hderef, hrest, harrlen, hlen', ?_⟩
  refine getD_isSome_of_take hderef ?_ (by omega)
  intro o ho
  rw [List.mem_append] at ho
  rcases ho with ho | ho
  · exact deref_all_isSome v ⟨hlen, hle, hinit⟩ o ho
  · rw [List.mem_map] at ho
    obtain ⟨a, _, ha⟩ := ho
    rw [← ha]
    rfl

/-- C7: bulk-extend never fails: it appends exactly
`min (|source|, remaining capacity)` items of the source, in order,
after the existing elements, consuming exactly that many (the rest of
the source is left behind, never materialized); construction from a
sequence is create-empty-then-extend, so an oversized source fills the
vector to exactly capacity `N` with the first `N` source values in
order. -/
theorem extend_from_iter_spec (v : ArrayVec T N) (xs : List T) (h : v.WF) :
    (v.extend xs).len = v.len + min (N - v.len) xs.length
    ∧ (v.extend xs).deref = v.deref ++ (xs.take (N - v.len)).map some
    ∧ v.extend_rest xs = xs.drop (N - v.len)
    ∧ (v.extend xs).WF
    ∧ (ArrayVec.from_iter xs : ArrayVec T N) = (ArrayVec.empty T N).extend xs
    ∧ (ArrayVec.from_iter xs : ArrayVec T N).len = min N xs.length
    ∧ (ArrayVec.from_iter xs : ArrayVec T N).deref = (xs.take N).map some := by
  obtain ⟨h1, h2, h3, h4⟩ := extend_spec v xs h
  obtain ⟨e1, e2, _, _⟩ := extend_spec (ArrayVec.empty T N) xs empty_WF
  have hemplen : (ArrayVec.empty T N).len = 0 := rfl
  have hempderef : (ArrayVec.empty T N).deref = [] := by
    simp [ArrayVec.deref, ArrayVec.empty]
  refine ⟨h1, h2, h3, h4, rfl, ?_, ?_⟩
  · show ((ArrayVec.empty T N).extend xs).len = min N xs.length
    rw [e1, hemplen]
    simp
  · show ((ArrayVec.empty T N).extend xs).deref = (xs.take N).map some
    rw [e2, hempderef, hemplen]
    simp

/-- Witness: extending a one-element capacity-3 vector with an oversized
source, and collecting an oversized source into a capacity-3 vector. -/
theorem extend_from_iter_spec_witness :
    ((⟨[some 9, none, none], 1⟩ : ArrayVec Nat 3).extend [1, 2, 3, 4]).len
        = 1 + min (3 - 1) 4
    ∧ ((⟨[some 9, none, none], 1⟩ : ArrayVec Nat 3).extend [1, 2, 3, 4]).deref
        = (⟨[some 9, none, none], 1⟩ : ArrayVec Nat 3).deref
          ++ (([1, 2, 3, 4].take (3 - 1)).map some)
    ∧ (⟨[some 9, none, none], 1⟩ : ArrayVec Nat 3).extend_rest [1, 2, 3, 4]
        = [1, 2, 3, 4].drop (3 - 1)
    ∧ ((⟨[some 9, none, none], 1⟩ : ArrayVec Nat 3).extend [1, 2, 3, 4]).WF
    ∧ (ArrayVec.from_iter [1, 2, 3, 4] : ArrayVec Nat 3)
        = (ArrayVec.empty Nat 3).extend [1, 2, 3, 4]
    ∧ (ArrayVec.from_iter [1, 2, 3, 4] : ArrayVec Nat 3).len = min 3 4
    ∧ (ArrayVec.from_iter [1, 2, 3, 4] : ArrayVec Nat 3).deref
        = ([1, 2, 3, 4].take 3).map some :=
  extend_from_iter_spec (⟨[some 9, none, none], 1⟩ : ArrayVec Nat 3)
    [1, 2, 3, 4] (by decide)

/-- The empty vector refines the empty stack. -/
theorem rel_empty : Rel (ArrayVec.empty T N) ([] : List T) := by
  refine ⟨by simp [ArrayVec.empty], by simp [ArrayVec.empty], by simp, ?_⟩
  simp [ArrayVec.empty]

/-- A `try_push` below capacity succeeds and preserves the refinement
relation, appending the item to the abstract stack. -/
theorem rel_push {v : ArrayVec T N} {s : List T} (hR : Rel v s) (x : T)
    (hlt : s.length < N) :
    v.try_push x = (v.push_unchecked x, Except.ok ())
    ∧ Rel (v.push_unchecked x) (s ++ [x]) := by
  obtain ⟨hlen, hvlen, hsle, htake⟩ := hR
  have hvlt : v.len < N := by omega
  constructor
  · unfold ArrayVec.try_push
    rw [if_pos (by simpa [ArrayVec.capacity] using hvlt)]
  · refine ⟨?_, ?_, ?_, ?_⟩
    · simp [ArrayVec.push_unchecked, List.length_set, hlen]
    · simp [ArrayVec.push_unchecked, hvlen]
    · simp; omega
    · show (v.array.set v.len (some x)).take (v.len + 1) = (s ++ [x]).map some
      rw [take_succ_set v.array v.len (some x) (by omega), htake]
      simp

/-- A `pop` preserves the refinement relation, removing and returning
the last element of the abstract stack (nothing when it is empty). -/
theorem rel_pop {v : ArrayVec T N} {s : List T} (hR : Rel v s) :
    Rel (v.pop).1 s.dropLast ∧ (v.pop).2 = s.getLast? := by
  obtain ⟨hlen, hvlen, hsle, htake⟩ := hR
  by_cases hs : s = []
  · subst hs
    have hv0 : v.len = 0 := by simpa using hvlen
    have hemp : v.is_empty = true := by simp [ArrayVec.is_empty, hv0]
    unfold ArrayVec.pop
    rw [if_pos (by simp [hemp])]
    exact ⟨⟨hlen, hvlen, hsle, htake⟩, rfl⟩
  · have hpos : 0 < s.length := List.length_pos.mpr hs
    have hemp : v.is_empty = false := by
      simp [ArrayVec.is_empty]
      omega
    unfold ArrayVec.pop
    rw [if_neg (by simp [hemp])]
    constructor
    · refine ⟨hlen, ?_, ?_, ?_⟩
      · simp [ArrayVec.set_len, hvlen, List.length_dropLast]
      · rw [List.length_dropLast]; omega
      · show v.array.take (v.len - 1) = s.dropLast.map some
        have h1 : v.array.take (v.len - 1)
            = (v.array.take v.len).take (v.len - 1) := by
          rw [List.take_take, Nat.min_eq_left (by omega)]
        rw [h1, htake, List.dropLast_eq_take, ← List.map_take, hvlen]
    · show v.take (v.len - 1) = s.getLast?
      unfold ArrayVec.take
      rw [List.getD_eq_getElem?_getD]
      have hidx : v.len - 1 < v.len := by omega
      have h3 : v.array[v.len - 1]? = (s.map some)[v.len - 1]? := by
        rw [← htake, List.getElem?_take, if_pos hidx]
      rw [h3, List.getElem?_map, hvlen, List.getLast?_eq_getElem?]
      cases s[s.length - 1]? <;> simp

/-- Simulation: an admissible operation sequence runs without panic and
the final vector refines the abstract stack run, with identical pop
outputs. -/
theorem run_sim :
    ∀ (ops : List (Op T)) (v : ArrayVec T N) (s : List T),
      Rel v s → admissible N ops s = true →
      ∃ r, runVec ops v = some r
        ∧ Rel r.1 (runModel ops s).1 ∧ r.2 = (runModel ops s).2 := by
  intro ops
  induction ops with
  | nil =>
    intro v s hR _
    exact ⟨(v, []), rfl, hR, rfl⟩
  | cons op rest ih =>
    intro v s hR hAdm
    cases op with
    | push x =>
      rw [admissible, Bool.and_eq_true, decide_eq_true_iff] at hAdm
      obtain ⟨hlt, hAdm'⟩ := hAdm
      obtain ⟨hpush, hR'⟩ := rel_push hR x hlt
      obtain ⟨r, hrun, hrel, hout⟩ := ih _ _ hR' hAdm'
      refine ⟨r, ?_, ?_, ?_⟩
      · show (match v.try_push x with
          | (v', Except.ok _) => runVec rest v'
          | (_, Except.error _) => none) = some r
        rw [hpush]
        exact hrun
      · simpa [runModel] using hrel
      · simpa [runModel] using hout
    | pop =>
      rw [admissible] at hAdm
      obtain ⟨hrel', hout'⟩ := rel_pop hR
      obtain ⟨r, hrun, hrel, hout⟩ := ih _ _ hrel' hAdm
      refine ⟨(r.1, (v.pop).2 :: r.2), ?_, ?_, ?_⟩
      · show (runVec rest (v.pop).1).map
            (fun t => (t.1, (v.pop).2 :: t.2)) = some (r.1, (v.pop).2 :: r.2)
        rw [hrun]
        rfl
      · simpa [runModel] using hrel
      · show (v.pop).2 :: r.2 = (runModel (Op.pop :: rest) s).2
        simp [runModel, hout, hout']

/-- Counting: when no pop hits an empty stack, the final stack size plus
the pop count equals the initial size plus the push count. -/
theorem model_count :
    ∀ (ops : List (Op T)) (s : List T), noUnderflow ops s = true →
      (runModel ops s).1.length + countPops ops
        = s.length + countPushes ops := by
  intro ops
  induction ops with
  | nil =>
    intro s _
    simp [runModel, countPops, countPushes]
  | cons op rest ih =>
    intro s h
    cases op with
    | push x =>
      rw [noUnderflow] at h
      have := ih (s ++ [x]) h
      simp [runModel, countPops, countPushes] at this ⊢
      omega
    | pop =>
      rw [noUnderflow, Bool.and_eq_true] at h
      obtain ⟨hne, h'⟩ := h
      have hpos : 0 < s.length := by
        cases s
        · simp at hne
        · simp
      have := ih s.dropLast h'
      simp [runModel, countPops, countPushes, List.length_dropLast] at this ⊢
      omega

/-- C1 (amended): any push/pop sequence whose pushes stay within
capacity runs from the empty vector without panic; afterwards the length
and the live slice equal the abstract stack (LIFO) run, every pop
returned the most recently pushed not-yet-popped value (nothing on an
empty vector), and — provided no pop hit an empty vector — the final
length plus the number of pops equals the number of pushes. -/
theorem push_pop_sequence_spec (ops : List (Op T))
    (h : admissible N ops ([] : List T) = true) :
    ∃ r, runVec ops (ArrayVec.empty T N) = some r
      ∧ r.1.len = (runModel ops ([] : List T)).1.length
      ∧ r.1.deref = ((runModel ops ([] : List T)).1).map some
      ∧ r.2 = (runModel ops ([] : List T)).2
      ∧ (noUnderflow ops ([] : List T) = true →
          r.1.len + countPops ops = countPushes ops) := by
  obtain ⟨r, hrun, hrel, hout⟩ :=
    run_sim ops (ArrayVec.empty T N) [] rel_empty h
  obtain ⟨hlen, hvlen, hsle, htake⟩ := hrel
  refine ⟨r, hrun, hvlen, ?_, hout, ?_⟩
  · show r.1.array.take r.1.len = _
    exact htake
  · intro hnu
    have hc := model_count ops [] hnu
    simp [countPushes] at hc
    omega

/-- Witness: the sequence push 1, push 2, pop on a capacity-2 vector. -/
theorem push_pop_sequence_spec_witness :
    admissible 2 [Op.push 1, Op.push 2, Op.pop] ([] : List Nat) = true
    ∧ ∃ r, runVec [Op.push 1, Op.push 2, Op.pop] (ArrayVec.empty Nat 2)
          = some r
        ∧ r.1.len
          = (runModel [Op.push 1, Op.push 2, Op.pop] ([] : List Nat)).1.length
        ∧ r.1.deref
          = ((runModel [Op.push 1, Op.push 2, Op.pop] ([] : List Nat)).1).map
              some
        ∧ r.2 = (runModel [Op.push 1, Op.push 2, Op.pop] ([] : List Nat)).2
        ∧ (noUnderflow [Op.push 1, Op.push 2, Op.pop] ([] : List Nat) = true →
            r.1.len + countPops [Op.push (1:Nat), Op.push 2, Op.pop]
              = countPushes [Op.push (1:Nat), Op.push 2, Op.pop]) :=
  ⟨by decide, push_pop_sequence_spec [Op.push 1, Op.push 2, Op.pop] (by decide)⟩

/-- C1 counterexample: the sequence pop, push 0 never exceeds capacity 2
and ends with `len() = 1`, but has one push and one pop, so the claimed
`len() = #pushes - #pops` fails (the pop hit the empty vector and
returned nothing). -/
theorem pop_on_empty_breaks_count :
    runVec [Op.pop, Op.push 0] (ArrayVec.empty Nat 2)
        = some (⟨[some 0, none], 1⟩, [none])
    ∧ admissible 2 [Op.pop, Op.push (0:Nat)] ([] : List Nat) = true
    ∧ countPushes [Op.pop, Op.push (0:Nat)]
        - countPops [Op.pop, Op.push (0:Nat)] = 0
    ∧ (1 : Nat) ≠ countPushes [Op.pop, Op.push (0:Nat)]
        - countPops [Op.pop, Op.push (0:Nat)] := by
  refine ⟨?_, by decide, by decide, by decide⟩
  rfl

end GenericArrayVec
